import Mathlib

/-!
Verification of the keyword extraction and alignment engine of the
QuestionAir repository (`src/QuestionGenerator/keyword_extractor.py`).

The Python class `KeywordExtractor` is shallowly embedded as pure Lean
functions over an explicit state (`KWState`) holding the two caches.
External collaborators are parameters:

* the embedding service (`ollama.embeddings`) becomes a pure function
  `provider : String → Emb` (the service is deterministic per text for the
  purposes of this development; the code caches by exact text anyway);
* `sklearn`'s `cosine_similarity` becomes a function `sim : Emb → Emb → ℚ`
  (floating point scores are modelled as rationals; no claim in scope
  depends on the numeric formula, only on comparisons with the threshold);
* the spaCy document (entities, noun chunks, per-token POS tags) becomes
  a `Doc` record produced by a parameter `annotate : String → Doc`;
* the TF-IDF routine becomes `tfidf_top : String → Option (List String)`,
  `none` standing for the exception the code swallows.

Python dictionaries are association lists with first-match lookup
(`dlookup`) and in-place update / append-on-miss insertion (`dinsert`);
Python sets are insertion-ordered duplicate-free lists built with `sadd`
(every observation the code makes of a set — membership, uniform writes —
is insensitive to the hash iteration order, so insertion order is a
faithful deterministic model).
-/

namespace QuestionAir

/-- Embedding vectors (`np.ndarray` of floats) are modelled as lists of
rationals; their contents only flow into the abstract `sim` parameter. -/
abbrev Emb := List ℚ

/-- The empty string, used as the (unreachable) default of list indexing. -/
def emptyStr : String := ""

/-- First-match association-list lookup: `k in d` / `d[k]` of a Python dict. -/
def dlookup {α : Type} (d : List (String × α)) (k : String) : Option α :=
  (d.find? (fun p => p.1 == k)).map (fun p => p.2)

/-- Python dict assignment `d[k] = v`: replace the first binding of `k`
in place, or append a fresh binding at the end. -/
def dinsert {α : Type} : List (String × α) → String → α → List (String × α)
  | [], k, v => [(k, v)]
  | p :: d, k, v => if p.1 == k then (k, v) :: d else p :: dinsert d k v

/-- Python `set.add`, on the insertion-ordered list model of a set. -/
def sadd (s : List String) (k : String) : List String :=
  if k ∈ s then s else s ++ [k]

/-- The mutable state of a `KeywordExtractor` instance: the two caches
initialised empty in `__init__`. -/
structure KWState where
  embedding_cache : List (String × Emb)
  keyword_alignment_cache : List (String × String)
deriving DecidableEq

/-- A `KeywordExtractor` fresh out of `__init__`: both caches empty. -/
def coldState : KWState := ⟨[], []⟩

/-- `KeywordExtractor.get_embedding`: return the cached vector if present,
otherwise call the provider and record the result in the embedding cache. -/
def get_embedding (provider : String → Emb) (st : KWState) (text : String) :
    Emb × KWState :=
  match dlookup st.embedding_cache text with
  | some e => (e, st)
  | none =>
      let e := provider text
      (e, { st with embedding_cache := dinsert st.embedding_cache text e })

/-- The value `get_embedding` yields for `text` from state `st`: the cached
entry if present, else the provider's answer. -/
def effEmb (provider : String → Emb) (st : KWState) (text : String) : Emb :=
  (dlookup st.embedding_cache text).getD (provider text)

/-! ### Candidate generation (`extract_keywords`, methods 1–4 and the filter) -/

/-- One spaCy token: surface text and coarse POS tag. -/
structure Token where
  text : String
  pos : String
deriving DecidableEq

/-- The parts of a spaCy `Doc` the code reads: entity texts, noun-chunk
texts, and the token stream. -/
structure Doc where
  ents : List String
  noun_chunks : List String
  tokens : List Token
deriving DecidableEq

/-- `important_pos = {'NOUN', 'PROPN', 'ADJ'}`. -/
def important_pos : List String := ["NOUN", "PROPN", "ADJ"]

/-- Python's `\s` on unicode strings (the whitespace class of the filter
regex): 09–0D, 1C–1F, 20, 85, A0, 1680, 2000–200A, 2028, 2029, 202F,
205F, 3000. -/
def pySpace (c : Char) : Bool :=
  let n := c.toNat
  (0x09 ≤ n && n ≤ 0x0D) || (0x1C ≤ n && n ≤ 0x1F) || n == 0x20 ||
  n == 0x85 || n == 0xA0 || n == 0x1680 || (0x2000 ≤ n && n ≤ 0x200A) ||
  n == 0x2028 || n == 0x2029 || n == 0x202F || n == 0x205F || n == 0x3000

/-- The character class of the filter regex `[a-zA-ZÀ-ÿ\s-]`: the three
code-point ranges a–z (61–7A), A–Z (41–5A), À–ÿ (C0–FF), Python
whitespace, and the hyphen (2D). -/
def filterChar (c : Char) : Bool :=
  let n := c.toNat
  (0x61 ≤ n && n ≤ 0x7A) || (0x41 ≤ n && n ≤ 0x5A) ||
  (0xC0 ≤ n && n ≤ 0xFF) || pySpace c || n == 0x2D

/-- The candidate filter `len(k) > 2 and re.match(r'^[a-zA-ZÀ-ÿ\s-]+$', k)`.
`re.match` of this anchored pattern succeeds exactly on non-empty strings
all of whose characters lie in the class (the `$`-before-trailing-newline
case adds nothing because `\n` is itself in the class), and `len(k) > 2`
subsumes non-emptiness. -/
def passes_filter (k : String) : Bool :=
  decide (k.length > 2) && k.data.all filterChar

/-- Python `str.lower()`, modelled as character-wise lower-casing (the
ASCII case mapping; no claim in scope depends on the case mapping of
non-ASCII letters). -/
def pyLower (s : String) : String := ⟨s.data.map Char.toLower⟩

/-- The candidate-generation part of `extract_keywords`: union (as an
insertion-ordered set) of lower-cased entity texts, lower-cased noun-chunk
texts, lower-cased tokens with an important POS tag, and the TF-IDF terms
(when that step did not fail), then the length/character filter. -/
def generate_candidates (doc : Doc) (tfidf_result : Option (List String)) :
    List String :=
  let c1 := doc.ents.foldl (fun s e => sadd s (pyLower e)) []
  let c2 := doc.noun_chunks.foldl (fun s ch => sadd s (pyLower ch)) c1
  let c3 := doc.tokens.foldl
    (fun s t => if t.pos ∈ important_pos then sadd s (pyLower t.text) else s) c2
  let c4 := match tfidf_result with
    | none => c3
    | some ws => ws.foldl sadd c3
  c4.filter passes_filter

/-- The dict comprehension `{k: self.get_embedding(k) for k in ks}`:
threads the extractor state through `get_embedding` while building the
local keyword → embedding dictionary. -/
def embed_all (provider : String → Emb) :
    List String → List (String × Emb) → KWState → List (String × Emb) × KWState
  | [], acc, st => (acc, st)
  | k :: ks, acc, st =>
      let r := get_embedding provider st k
      embed_all provider ks (dinsert acc k r.1) r.2

/-- `KeywordExtractor.extract_keywords`: generate candidates, embed them
and the full text, score each candidate by similarity to the text
embedding, sort descending (Python `sorted` with `reverse=True` is a
stable merge sort under the reversed comparison) and keep the first
`num_keywords` keys. -/
def extract_keywords (provider : String → Emb) (sim : Emb → Emb → ℚ)
    (annotate : String → Doc) (tfidf_top : String → Option (List String))
    (st : KWState) (text : String) (num_keywords : Nat) :
    List String × KWState :=
  let doc := annotate text
  let candidates := generate_candidates doc (tfidf_top text)
  let ce := embed_all provider candidates [] st
  let candidate_embeddings := ce.1
  let st1 := ce.2
  let te := get_embedding provider st1 text
  let text_embedding := te.1
  let st2 := te.2
  let scores := candidate_embeddings.map (fun p => (p.1, sim p.2 text_embedding))
  let top_keywords := scores.mergeSort (fun a b => decide (b.2 ≤ a.2))
  ((top_keywords.take num_keywords).map (fun p => p.1), st2)

/-! ### Keyword alignment (`align_keywords`) -/

/-- Entry `(i, j)` of the similarity matrix: the code fills only `i < j`
and mirrors, leaving the `np.zeros` diagonal at `0`, so the entry for
`i ≠ j` is the similarity of the embeddings of the keywords at positions
`min i j` and `max i j`. -/
def simEntry (sim : Emb → Emb → ℚ) (embs : List (String × Emb))
    (kws : List String) (i j : Nat) : ℚ :=
  if i = j then 0
  else sim ((dlookup embs (kws.getD (min i j) emptyStr)).getD [])
           ((dlookup embs (kws.getD (max i j) emptyStr)).getD [])

/-- One iteration of the inner `for j in range(n)` loop of the clustering
pass, acting on the pair (cluster, used): add `keywords[j]` to both
whenever `i ≠ j` and the similarity is at least the threshold. -/
def innerStep (simm : Nat → Nat → ℚ) (kws : List String) (threshold : ℚ)
    (i : Nat) (cu : List String × List String) (j : Nat) :
    List String × List String :=
  if i ≠ j ∧ threshold ≤ simm i j then
    (sadd cu.1 (kws.getD j emptyStr), sadd cu.2 (kws.getD j emptyStr))
  else cu

/-- The inner `for j in range(n)` loop of the clustering pass: starting
from the singleton cluster `{keywords[i]}` (with `keywords[i]` marked
used). -/
def cluster_step (simm : Nat → Nat → ℚ) (kws : List String) (threshold : ℚ)
    (n i : Nat) (used : List String) : List String × List String :=
  (List.range n).foldl (innerStep simm kws threshold i)
    ([kws.getD i emptyStr], sadd used (kws.getD i emptyStr))

/-- The outer `for i in range(n)` loop: skip seeds already used, otherwise
append the cluster grown around seed `i`. Returns the cluster list
together with the final `used` set (the code drops `used`; it is kept
here so that invariants about it can be stated). -/
def build_clusters_aux (simm : Nat → Nat → ℚ) (kws : List String)
    (threshold : ℚ) (n : Nat) :
    List Nat → List (List String) → List String →
      List (List String) × List String
  | [], cls, used => (cls, used)
  | i :: is, cls, used =>
      if kws.getD i emptyStr ∈ used then
        build_clusters_aux simm kws threshold n is cls used
      else
        let cu := cluster_step simm kws threshold n i used
        build_clusters_aux simm kws threshold n is (cls ++ [cu.1]) cu.2

/-- The greedy seed-anchored clustering pass of `align_keywords`. -/
def build_clusters (simm : Nat → Nat → ℚ) (kws : List String)
    (threshold : ℚ) : List (List String) :=
  (build_clusters_aux simm kws threshold kws.length
    (List.range kws.length) [] []).1

/-- Number of occurrences of `k` in the original keyword list
(`Counter`'s count). -/
def countOf (kws : List String) (k : String) : Nat :=
  (kws.filter (fun x => x == k)).length

/-- Order-preserving first-occurrence deduplication: the key order of a
`Counter` built from a sequence. -/
def firstDedup (seen : List String) : List String → List String
  | [] => []
  | k :: ks =>
      if k ∈ seen then firstDedup seen ks
      else k :: firstDedup (k :: seen) ks

/-- Python `max(counts.items(), key=lambda x: x[1])[0]`: the first member
(in `Counter` key order) attaining the maximal count — `max` replaces the
running best only on a strictly greater key. -/
def pymax (kws : List String) : List String → String
  | [] => emptyStr
  | m :: ms =>
      ms.foldl (fun best k => if countOf kws best < countOf kws k then k else best) m

/-- Representative of a cluster: the most frequent member in the original
input list, ties broken by first occurrence in the input. -/
def representative (kws : List String) (cluster : List String) : String :=
  pymax kws (firstDedup [] (kws.filter (fun k => k ∈ cluster)))

/-- `for k in cluster: self.keyword_alignment_cache[k] = representative`
(every write in one cluster stores the same value, so the set iteration
order is immaterial; the cluster's insertion-ordered list is used). -/
def write_cluster (cache : List (String × String)) (cluster : List String)
    (rep : String) : List (String × String) :=
  cluster.foldl (fun c k => dinsert c k rep) cache

/-- `KeywordExtractor.align_keywords`: empty input short-circuits; if every
keyword is already aligned, the cache fast path answers per input keyword;
otherwise embed, cluster, pick representatives, record them in the
alignment cache and return one representative per cluster. -/
def align_keywords (provider : String → Emb) (sim : Emb → Emb → ℚ)
    (st : KWState) (keywords : List String) (threshold : ℚ) :
    List String × KWState :=
  if keywords = [] then ([], st)
  else if keywords.all (fun k => (dlookup st.keyword_alignment_cache k).isSome) then
    (keywords.map (fun k => (dlookup st.keyword_alignment_cache k).getD emptyStr), st)
  else
    let er := embed_all provider keywords [] st
    let embs := er.1
    let st1 := er.2
    let simm := simEntry sim embs keywords
    let clusters := build_clusters simm keywords threshold
    clusters.foldl
      (fun (acc : List String × KWState) cluster =>
        let rep := representative keywords cluster
        (acc.1 ++ [rep],
         { acc.2 with keyword_alignment_cache :=
             write_cluster acc.2.keyword_alignment_cache cluster rep }))
      ([], st1)

/-! ### Basic lemmas about the dictionary and set models -/

theorem dlookup_nil {α : Type} (x : String) : dlookup ([] : List (String × α)) x = none := rfl

theorem dlookup_cons {α : Type} (p : String × α) (d : List (String × α)) (x : String) :
    dlookup (p :: d) x = if p.1 = x then some p.2 else dlookup d x := by
  simp only [dlookup, List.find?_cons]
  by_cases h : p.1 = x
  · simp [h]
  · simp [h, beq_eq_false_iff_ne.mpr h]

theorem dlookup_append {α : Type} (d₁ d₂ : List (String × α)) (x : String) :
    dlookup (d₁ ++ d₂) x = (dlookup d₁ x).or (dlookup d₂ x) := by
  induction d₁ with
  | nil => simp [dlookup_nil]
  | cons p d ih =>
      rw [List.cons_append, dlookup_cons, dlookup_cons]
      by_cases h : p.1 = x <;> simp [h, ih]

theorem dlookup_dinsert {α : Type} (d : List (String × α)) (k : String) (v : α)
    (x : String) :
    dlookup (dinsert d k v) x = if x = k then some v else dlookup d x := by
  induction d with
  | nil =>
      simp only [dinsert, dlookup_cons, dlookup_nil]
      by_cases h : x = k
      · rw [if_pos h.symm, if_pos h]
      · rw [if_neg (Ne.symm h), if_neg h]
  | cons p d ih =>
      by_cases hpk : p.1 = k
      · simp only [dinsert, hpk, beq_self_eq_true, if_true]
        rw [dlookup_cons, dlookup_cons, hpk]
        by_cases hxk : x = k
        · rw [if_pos hxk.symm, if_pos hxk]
        · rw [if_neg fun h => hxk h.symm, if_neg hxk,
            if_neg fun h => hxk h.symm]
      · simp only [dinsert, beq_eq_false_iff_ne.mpr hpk, Bool.false_eq_true,
          if_false]
        rw [dlookup_cons, ih, dlookup_cons]
        split_ifs with h1 h2 <;> first
          | rfl
          | exact absurd (h1.trans h2) hpk

theorem dinsert_of_lookup_none {α : Type} (d : List (String × α)) (k : String)
    (v : α) (h : dlookup d k = none) : dinsert d k v = d ++ [(k, v)] := by
  induction d with
  | nil => rfl
  | cons p d ih =>
      rw [dlookup_cons] at h
      by_cases hpk : p.1 = k
      · simp [hpk] at h
      · simp only [dinsert, beq_eq_false_iff_ne.mpr hpk, Bool.false_eq_true,
          if_false, List.cons_append, List.cons.injEq, true_and]
        exact ih (by simpa [hpk] using h)

theorem mem_sadd {s : List String} {k x : String} :
    x ∈ sadd s k ↔ x ∈ s ∨ x = k := by
  unfold sadd
  by_cases h : k ∈ s
  · simp only [h, if_true]
    constructor
    · exact Or.inl
    · rintro (hx | rfl) <;> assumption
  · simp [h]

theorem sadd_ne_nil (s : List String) (k : String) : sadd s k ≠ [] := by
  unfold sadd
  split_ifs with h
  · intro hs
    rw [hs] at h
    simp at h
  · simp

theorem head?_sadd (s : List String) (k : String) (h : s ≠ []) :
    (sadd s k).head? = s.head? := by
  unfold sadd
  by_cases hk : k ∈ s
  · simp [hk]
  · match s, h with
    | a :: s, _ => simp [hk]

theorem nodup_sadd {s : List String} (k : String) (h : s.Nodup) :
    (sadd s k).Nodup := by
  unfold sadd
  split_ifs with hk
  · exact h
  · rw [List.nodup_append]
    refine ⟨h, List.nodup_singleton k, ?_⟩
    intro a ha hb
    rw [List.mem_singleton] at hb
    subst hb
    exact hk ha

theorem foldl_sadd_mem (l : List String) (s : List String) (x : String) :
    x ∈ l.foldl sadd s ↔ x ∈ s ∨ x ∈ l := by
  induction l generalizing s with
  | nil => simp
  | cons a l ih =>
      rw [List.foldl_cons, ih, mem_sadd, List.mem_cons]
      tauto

theorem foldl_sadd_nodup (l : List String) {s : List String} (h : s.Nodup) :
    (l.foldl sadd s).Nodup := by
  induction l generalizing s with
  | nil => simpa
  | cons a l ih => exact ih (nodup_sadd a h)

theorem foldl_sadd_ne_nil (l : List String) {s : List String} (h : s ≠ []) :
    l.foldl sadd s ≠ [] := by
  induction l generalizing s with
  | nil => simpa
  | cons a l ih => exact ih (sadd_ne_nil s a)

theorem head?_foldl_sadd (l : List String) {s : List String} (h : s ≠ []) :
    (l.foldl sadd s).head? = s.head? := by
  induction l generalizing s with
  | nil => rfl
  | cons a l ih => rw [List.foldl_cons, ih (sadd_ne_nil s a), head?_sadd s a h]

theorem getD_mem {l : List String} {i : Nat} (h : i < l.length) :
    l.getD i emptyStr ∈ l := by
  rw [List.getD_eq_getElem l emptyStr h]
  exact List.getElem_mem h

theorem sadd_of_mem {s : List String} {k : String} (h : k ∈ s) : sadd s k = s := by
  simp [sadd, h]

/-! ### Lemmas about `get_embedding` and `embed_all` -/

theorem get_embedding_fst (provider : String → Emb) (st : KWState) (t : String) :
    (get_embedding provider st t).1 = effEmb provider st t := by
  unfold get_embedding effEmb
  cases dlookup st.embedding_cache t <;> rfl

theorem get_embedding_emb_lookup (provider : String → Emb) (st : KWState)
    (t x : String) :
    dlookup (get_embedding provider st t).2.embedding_cache x =
      if x = t ∧ dlookup st.embedding_cache t = none then some (provider t)
      else dlookup st.embedding_cache x := by
  unfold get_embedding
  cases h : dlookup st.embedding_cache t with
  | some e => simp [h]
  | none =>
      simp only [h, dlookup_dinsert]
      by_cases hx : x = t
      · simp [hx]
      · simp [hx]

theorem get_embedding_align (provider : String → Emb) (st : KWState) (t : String) :
    (get_embedding provider st t).2.keyword_alignment_cache =
      st.keyword_alignment_cache := by
  unfold get_embedding
  cases dlookup st.embedding_cache t <;> rfl

theorem get_embedding_preserves (provider : String → Emb) (st : KWState)
    (t k : String) (v : Emb) (h : dlookup st.embedding_cache k = some v) :
    dlookup (get_embedding provider st t).2.embedding_cache k = some v := by
  rw [get_embedding_emb_lookup]
  by_cases hk : k = t ∧ dlookup st.embedding_cache t = none
  · rw [hk.1] at h
    rw [h] at hk
    exact absurd hk.2 (by simp)
  · simp [hk, h]

theorem embed_all_align (provider : String → Emb) (ks : List String)
    (acc : List (String × Emb)) (st : KWState) :
    (embed_all provider ks acc st).2.keyword_alignment_cache =
      st.keyword_alignment_cache := by
  induction ks generalizing acc st with
  | nil => rfl
  | cons k ks ih =>
      unfold embed_all
      rw [ih, get_embedding_align]

theorem embed_all_emb_lookup (provider : String → Emb) (ks : List String)
    (acc : List (String × Emb)) (st : KWState) (x : String) :
    dlookup (embed_all provider ks acc st).2.embedding_cache x =
      if x ∈ ks ∧ dlookup st.embedding_cache x = none then some (provider x)
      else dlookup st.embedding_cache x := by
  induction ks generalizing acc st with
  | nil => simp [embed_all]
  | cons k ks ih =>
      unfold embed_all
      rw [ih, get_embedding_emb_lookup provider st k x]
      by_cases hxk : x = k
      · subst hxk
        by_cases hnone : dlookup st.embedding_cache x = none
        · simp [hnone]
        · simp [hnone]
      · simp only [hxk, false_and, if_false]
        by_cases hxks : x ∈ ks
        · simp [hxks, hxk, List.mem_cons]
        · simp [hxks, hxk, List.mem_cons]

theorem embed_all_preserves (provider : String → Emb) (ks : List String)
    (acc : List (String × Emb)) (st : KWState) (k : String) (v : Emb)
    (h : dlookup st.embedding_cache k = some v) :
    dlookup (embed_all provider ks acc st).2.embedding_cache k = some v := by
  rw [embed_all_emb_lookup]
  rw [h]
  simp

theorem embed_all_fst (provider : String → Emb) (ks : List String)
    (acc : List (String × Emb)) (st : KWState) (hnd : ks.Nodup)
    (hacc : ∀ k ∈ ks, dlookup acc k = none) :
    (embed_all provider ks acc st).1 =
      acc ++ ks.map (fun k => (k, effEmb provider st k)) := by
  induction ks generalizing acc st with
  | nil => simp [embed_all]
  | cons k ks ih =>
      simp only [embed_all]
      have hk : dlookup acc k = none := hacc k (List.mem_cons_self k ks)
      rw [get_embedding_fst, dinsert_of_lookup_none acc k _ hk]
      have hnd' : ks.Nodup := (List.nodup_cons.mp hnd).2
      have hknotin : k ∉ ks := (List.nodup_cons.mp hnd).1
      rw [ih _ _ hnd' ?hacc]
      · have hsame : ∀ x ∈ ks,
            (x, effEmb provider (get_embedding provider st k).2 x) =
              (x, effEmb provider st x) := by
          intro x hx
          have hxk : ¬ x = k := fun hh => hknotin (hh ▸ hx)
          unfold effEmb
          rw [get_embedding_emb_lookup]
          simp [hxk]
        rw [List.map_congr_left hsame]
        simp
      case hacc =>
        intro x hx
        rw [dlookup_append]
        rw [hacc x (List.mem_cons_of_mem k hx), dlookup_cons]
        have hxk : ¬ (k, effEmb provider st k).1 = x := by
          simp only []
          intro hh
          exact hknotin (hh ▸ hx)
        simp [hxk, dlookup_nil]

theorem effEmb_embed_all (provider : String → Emb) (ks : List String)
    (acc : List (String × Emb)) (st : KWState) (x : String) :
    effEmb provider (embed_all provider ks acc st).2 x = effEmb provider st x := by
  unfold effEmb
  rw [embed_all_emb_lookup]
  split_ifs with h
  · rw [h.2]
    rfl
  · rfl

/-! ### Characterisation of `extract_keywords` -/

/-- Similarity score of candidate `k` against the document `text`, in terms
of the pre-call state `st` (cached embeddings win over the provider). -/
def scoreOf (provider : String → Emb) (sim : Emb → Emb → ℚ) (st : KWState)
    (text k : String) : ℚ :=
  sim (effEmb provider st k) (effEmb provider st text)

theorem generate_candidates_nodup (doc : Doc) (tf : Option (List String)) :
    (generate_candidates doc tf).Nodup := by
  unfold generate_candidates
  apply List.Nodup.filter
  have h1 : (doc.ents.foldl (fun s e => sadd s (pyLower e)) []).Nodup := by
    have : ∀ (l : List String) (s : List String), s.Nodup →
        (l.foldl (fun s e => sadd s (pyLower e)) s).Nodup := by
      intro l
      induction l with
      | nil => intro s hs; simpa
      | cons a l ih => intro s hs; exact ih _ (nodup_sadd _ hs)
    exact this doc.ents [] List.nodup_nil
  have h2 : ∀ (l : List String) (s : List String), s.Nodup →
      (l.foldl (fun s ch => sadd s (pyLower ch)) s).Nodup := by
    intro l
    induction l with
    | nil => intro s hs; simpa
    | cons a l ih => intro s hs; exact ih _ (nodup_sadd _ hs)
  have h3 : ∀ (l : List Token) (s : List String), s.Nodup →
      (l.foldl (fun s t => if t.pos ∈ important_pos then sadd s (pyLower t.text) else s)
        s).Nodup := by
    intro l
    induction l with
    | nil => intro s hs; simpa
    | cons a l ih =>
        intro s hs
        rw [List.foldl_cons]
        split_ifs with hp
        · exact ih _ (nodup_sadd _ hs)
        · exact ih _ hs
  have h4 : ∀ (l : List String) (s : List String), s.Nodup → (l.foldl sadd s).Nodup :=
    fun l s hs => foldl_sadd_nodup l hs
  cases tf with
  | none => exact h3 _ _ (h2 _ _ h1)
  | some ws => exact h4 _ _ (h3 _ _ (h2 _ _ h1))

theorem extract_keywords_eq (provider : String → Emb) (sim : Emb → Emb → ℚ)
    (annotate : String → Doc) (tfidf_top : String → Option (List String))
    (st : KWState) (text : String) (n : Nat) :
    extract_keywords provider sim annotate tfidf_top st text n =
      (((((generate_candidates (annotate text) (tfidf_top text)).map
            (fun k => (k, scoreOf provider sim st text k))).mergeSort
              (fun a b => decide (b.2 ≤ a.2))).take n).map (fun q => q.1),
       (get_embedding provider
          (embed_all provider (generate_candidates (annotate text) (tfidf_top text))
            [] st).2 text).2) := by
  simp only [extract_keywords]
  have hnd := generate_candidates_nodup (annotate text) (tfidf_top text)
  have hfst := embed_all_fst provider
    (generate_candidates (annotate text) (tfidf_top text)) [] st hnd
    (fun k _ => dlookup_nil k)
  rw [hfst]
  have htext : (get_embedding provider
      (embed_all provider (generate_candidates (annotate text) (tfidf_top text))
        [] st).2 text).1 = effEmb provider st text := by
    rw [get_embedding_fst, effEmb_embed_all]
  rw [htext]
  simp only [List.nil_append, List.map_map]
  rfl

theorem mem_generate_candidates {doc : Doc} {tf : Option (List String)}
    {k : String} (h : k ∈ generate_candidates doc tf) : passes_filter k = true :=
  (List.mem_filter.mp h).2

theorem filterChar_not_digit {c : Char} (h : filterChar c = true) :
    ¬ (0x30 ≤ c.toNat ∧ c.toNat ≤ 0x39) := by
  unfold filterChar pySpace at h
  simp only [Bool.or_eq_true, Bool.and_eq_true, decide_eq_true_eq, beq_iff_eq] at h
  intro hd
  omega

/-! ### Characterisation of `align_keywords` -/

/-- The alignment-cache contents after recording every cluster of `cls`
with its representative, in cluster order. -/
def alignWrites (kws : List String) (cls : List (List String))
    (cache : List (String × String)) : List (String × String) :=
  cls.foldl (fun c cluster => write_cluster c cluster (representative kws cluster)) cache

/-- The clusters a (slow-path) call `align_keywords st kws θ` works with. -/
def callClusters (provider : String → Emb) (sim : Emb → Emb → ℚ) (st : KWState)
    (kws : List String) (threshold : ℚ) : List (List String) :=
  build_clusters (simEntry sim (embed_all provider kws [] st).1 kws) kws threshold

theorem align_foldl_eq (kws : List String) (cls : List (List String))
    (acc : List String × KWState) :
    cls.foldl
      (fun (acc : List String × KWState) cluster =>
        let rep := representative kws cluster
        (acc.1 ++ [rep],
         { acc.2 with keyword_alignment_cache :=
             write_cluster acc.2.keyword_alignment_cache cluster rep })) acc =
    (acc.1 ++ cls.map (representative kws),
     { acc.2 with keyword_alignment_cache :=
         alignWrites kws cls acc.2.keyword_alignment_cache }) := by
  induction cls generalizing acc with
  | nil =>
      obtain ⟨a1, a2⟩ := acc
      simp [alignWrites]
  | cons c cls ih =>
      rw [List.foldl_cons, ih]
      simp [alignWrites]

theorem align_keywords_empty (provider : String → Emb) (sim : Emb → Emb → ℚ)
    (st : KWState) (threshold : ℚ) :
    align_keywords provider sim st [] threshold = ([], st) := by
  simp [align_keywords]

theorem align_keywords_fast (provider : String → Emb) (sim : Emb → Emb → ℚ)
    (st : KWState) (kws : List String) (threshold : ℚ) (h1 : kws ≠ [])
    (h2 : kws.all (fun k => (dlookup st.keyword_alignment_cache k).isSome) = true) :
    align_keywords provider sim st kws threshold =
      (kws.map (fun k => (dlookup st.keyword_alignment_cache k).getD emptyStr), st) := by
  simp [align_keywords, h1, h2]

theorem align_keywords_slow (provider : String → Emb) (sim : Emb → Emb → ℚ)
    (st : KWState) (kws : List String) (threshold : ℚ) (h1 : kws ≠ [])
    (h2 : ¬ kws.all (fun k => (dlookup st.keyword_alignment_cache k).isSome) = true) :
    align_keywords provider sim st kws threshold =
      ((callClusters provider sim st kws threshold).map (representative kws),
       ⟨(embed_all provider kws [] st).2.embedding_cache,
        alignWrites kws (callClusters provider sim st kws threshold)
          (embed_all provider kws [] st).2.keyword_alignment_cache⟩) := by
  simp only [align_keywords, h1, if_false, h2]
  rw [align_foldl_eq]
  simp [callClusters]

/-! ### The per-cluster cache writes, pointwise -/

/-- The last cluster of `cls` (in creation order) containing `k`, if any:
the cluster whose representative `k`'s cache entry ends up holding. -/
def lastContaining (cls : List (List String)) (k : String) :
    Option (List String) :=
  cls.foldl (fun acc c => if k ∈ c then some c else acc) none

theorem write_cluster_lookup (cache : List (String × String))
    (cluster : List String) (rep : String) (k : String) :
    dlookup (write_cluster cache cluster rep) k =
      if k ∈ cluster then some rep else dlookup cache k := by
  induction cluster generalizing cache with
  | nil => simp [write_cluster]
  | cons a c ih =>
      unfold write_cluster
      rw [List.foldl_cons]
      have := ih (dinsert cache a rep)
      unfold write_cluster at this
      rw [this, dlookup_dinsert]
      by_cases h1 : k ∈ c
      · simp [h1, List.mem_cons]
      · by_cases h2 : k = a
        · simp [h1, h2]
        · simp [h1, h2, List.mem_cons]

theorem lastContaining_init (k : String) (cls : List (List String))
    (acc : Option (List String)) :
    cls.foldl (fun a c => if k ∈ c then some c else a) acc =
      match cls.foldl (fun a c => if k ∈ c then some c else a) none with
      | some c => some c
      | none => acc := by
  induction cls generalizing acc with
  | nil => simp
  | cons c cls ih =>
      rw [List.foldl_cons, List.foldl_cons, ih]
      rw [ih (if k ∈ c then some c else none)]
      cases h : cls.foldl (fun a c => if k ∈ c then some c else a) none with
      | some c' => simp
      | none =>
          simp only []
          split_ifs with hc <;> rfl

theorem lastContaining_cons (k : String) (c : List String)
    (cls : List (List String)) :
    lastContaining (c :: cls) k =
      match lastContaining cls k with
      | some c' => some c'
      | none => if k ∈ c then some c else none := by
  unfold lastContaining
  rw [List.foldl_cons, lastContaining_init]

theorem alignWrites_lookup (kws : List String) (cls : List (List String))
    (cache : List (String × String)) (k : String) :
    dlookup (alignWrites kws cls cache) k =
      match lastContaining cls k with
      | some c => some (representative kws c)
      | none => dlookup cache k := by
  induction cls generalizing cache with
  | nil => simp [alignWrites, lastContaining]
  | cons c cls ih =>
      unfold alignWrites
      rw [List.foldl_cons]
      have := ih (write_cluster cache c (representative kws c))
      unfold alignWrites at this
      rw [this, lastContaining_cons, write_cluster_lookup]
      cases h : lastContaining cls k with
      | some c' => simp
      | none =>
          simp only []
          split_ifs with hc <;> rfl

theorem lastContaining_isSome (cls : List (List String)) (k : String) :
    (lastContaining cls k).isSome = true ↔ ∃ c ∈ cls, k ∈ c := by
  induction cls with
  | nil => simp [lastContaining]
  | cons c cls ih =>
      rw [lastContaining_cons]
      cases h : lastContaining cls k with
      | some c' =>
          simp only [Option.isSome_some, true_iff]
          rcases ih.mp (by rw [h]; rfl) with ⟨c'', hc'', hk⟩
          exact ⟨c'', List.mem_cons_of_mem c hc'', hk⟩
      | none =>
          simp only []
          constructor
          · intro hs
            split_ifs at hs with hc
            · exact ⟨c, List.mem_cons_self c cls, hc⟩
            · simp at hs
          · rintro ⟨c'', hc'', hk⟩
            rcases List.mem_cons.mp hc'' with rfl | hmem
            · simp [hk]
            · have : (lastContaining cls k).isSome = true := ih.mpr ⟨c'', hmem, hk⟩
              rw [h] at this
              simp at this

theorem lastContaining_mem (cls : List (List String)) (k : String)
    (c : List String) (h : lastContaining cls k = some c) : c ∈ cls ∧ k ∈ c := by
  induction cls with
  | nil => simp [lastContaining] at h
  | cons c' cls ih =>
      rw [lastContaining_cons] at h
      cases h' : lastContaining cls k with
      | some c'' =>
          rw [h'] at h
          simp only [Option.some.injEq] at h
          subst h
          rcases ih h' with ⟨hmem, hk⟩
          exact ⟨List.mem_cons_of_mem c' hmem, hk⟩
      | none =>
          rw [h'] at h
          simp only [] at h
          split_ifs at h with hc
          rw [Option.some.injEq] at h
          subst h
          exact ⟨List.mem_cons_self _ _, hc⟩

/-! ### Invariants of the clustering loops -/

theorem innerFold_mem_rel (simm : Nat → Nat → ℚ) (kws : List String)
    (threshold : ℚ) (i : Nat) (js : List Nat) (c u used0 : List String)
    (hcu : ∀ x, x ∈ u ↔ x ∈ used0 ∨ x ∈ c) (x : String) :
    x ∈ (js.foldl (innerStep simm kws threshold i) (c, u)).2 ↔
      x ∈ used0 ∨ x ∈ (js.foldl (innerStep simm kws threshold i) (c, u)).1 := by
  induction js generalizing c u with
  | nil => exact hcu x
  | cons j js ih =>
      rw [List.foldl_cons]
      unfold innerStep
      split_ifs with hcond
      · refine ih _ _ (fun y => ?_)
        rw [mem_sadd, mem_sadd, hcu y]
        tauto
      · exact ih _ _ hcu

theorem innerFold_fst_head (simm : Nat → Nat → ℚ) (kws : List String)
    (threshold : ℚ) (i : Nat) (js : List Nat) (c u : List String)
    (hc : c ≠ []) :
    (js.foldl (innerStep simm kws threshold i) (c, u)).1.head? = c.head? ∧
      (js.foldl (innerStep simm kws threshold i) (c, u)).1 ≠ [] := by
  induction js generalizing c u with
  | nil => exact ⟨rfl, hc⟩
  | cons j js ih =>
      rw [List.foldl_cons]
      unfold innerStep
      split_ifs with hcond
      · rcases ih (sadd c (kws.getD j emptyStr)) (sadd u (kws.getD j emptyStr))
          (sadd_ne_nil c _) with ⟨hh, hn⟩
        exact ⟨hh.trans (head?_sadd c _ hc), hn⟩
      · exact ih c u hc

theorem innerFold_fst_sources (simm : Nat → Nat → ℚ) (kws : List String)
    (threshold : ℚ) (i : Nat) (js : List Nat) (c u : List String) (x : String)
    (hx : x ∈ (js.foldl (innerStep simm kws threshold i) (c, u)).1) :
    x ∈ c ∨ ∃ j ∈ js, x = kws.getD j emptyStr := by
  induction js generalizing c u with
  | nil => exact Or.inl hx
  | cons j js ih =>
      rw [List.foldl_cons] at hx
      unfold innerStep at hx
      split_ifs at hx with hcond
      · rcases ih _ _ hx with hin | ⟨j', hj', hj'x⟩
        · rcases mem_sadd.mp hin with hin | rfl
          · exact Or.inl hin
          · exact Or.inr ⟨j, List.mem_cons_self j js, rfl⟩
        · exact Or.inr ⟨j', List.mem_cons_of_mem j hj', hj'x⟩
      · rcases ih _ _ hx with hin | ⟨j', hj', hj'x⟩
        · exact Or.inl hin
        · exact Or.inr ⟨j', List.mem_cons_of_mem j hj', hj'x⟩

theorem innerFold_fst_mono (simm : Nat → Nat → ℚ) (kws : List String)
    (threshold : ℚ) (i : Nat) (js : List Nat) (c u : List String) (x : String)
    (hx : x ∈ c) :
    x ∈ (js.foldl (innerStep simm kws threshold i) (c, u)).1 := by
  induction js generalizing c u with
  | nil => exact hx
  | cons j js ih =>
      rw [List.foldl_cons]
      unfold innerStep
      split_ifs with hcond
      · exact ih _ _ (mem_sadd.mpr (Or.inl hx))
      · exact ih _ _ hx

theorem innerFold_snd_mono (simm : Nat → Nat → ℚ) (kws : List String)
    (threshold : ℚ) (i : Nat) (js : List Nat) (c u : List String) (x : String)
    (hx : x ∈ u) :
    x ∈ (js.foldl (innerStep simm kws threshold i) (c, u)).2 := by
  induction js generalizing c u with
  | nil => exact hx
  | cons j js ih =>
      rw [List.foldl_cons]
      unfold innerStep
      split_ifs with hcond
      · exact ih _ _ (mem_sadd.mpr (Or.inl hx))
      · exact ih _ _ hx

theorem cluster_step_mem_rel (simm : Nat → Nat → ℚ) (kws : List String)
    (threshold : ℚ) (n i : Nat) (used : List String) (x : String) :
    x ∈ (cluster_step simm kws threshold n i used).2 ↔
      x ∈ used ∨ x ∈ (cluster_step simm kws threshold n i used).1 := by
  unfold cluster_step
  refine innerFold_mem_rel simm kws threshold i (List.range n) _ _ used
    (fun y => ?_) x
  rw [mem_sadd, List.mem_singleton]

theorem cluster_step_head (simm : Nat → Nat → ℚ) (kws : List String)
    (threshold : ℚ) (n i : Nat) (used : List String) :
    (cluster_step simm kws threshold n i used).1.head? =
        some (kws.getD i emptyStr) ∧
      (cluster_step simm kws threshold n i used).1 ≠ [] := by
  unfold cluster_step
  have := innerFold_fst_head simm kws threshold i (List.range n)
    [kws.getD i emptyStr] (sadd used (kws.getD i emptyStr)) (by simp)
  exact ⟨this.1, this.2⟩

theorem cluster_step_seed_mem (simm : Nat → Nat → ℚ) (kws : List String)
    (threshold : ℚ) (n i : Nat) (used : List String) :
    kws.getD i emptyStr ∈ (cluster_step simm kws threshold n i used).1 := by
  unfold cluster_step
  exact innerFold_fst_mono simm kws threshold i (List.range n) _ _ _
    (List.mem_singleton_self _)

theorem cluster_step_used_mono (simm : Nat → Nat → ℚ) (kws : List String)
    (threshold : ℚ) (n i : Nat) (used : List String) (x : String) (hx : x ∈ used) :
    x ∈ (cluster_step simm kws threshold n i used).2 := by
  unfold cluster_step
  exact innerFold_snd_mono simm kws threshold i (List.range n) _ _ _
    (mem_sadd.mpr (Or.inl hx))

theorem cluster_step_sources (simm : Nat → Nat → ℚ) (kws : List String)
    (threshold : ℚ) (n i : Nat) (used : List String) (x : String)
    (hx : x ∈ (cluster_step simm kws threshold n i used).1) :
    x = kws.getD i emptyStr ∨ ∃ j ∈ List.range n, x = kws.getD j emptyStr := by
  unfold cluster_step at hx
  rcases innerFold_fst_sources simm kws threshold i (List.range n) _ _ _ hx with
    hin | hsrc
  · exact Or.inl (List.mem_singleton.mp hin)
  · exact Or.inr hsrc

theorem aux_inv (simm : Nat → Nat → ℚ) (kws : List String) (threshold : ℚ)
    (n : Nat) (is : List Nat) (cls : List (List String)) (used : List String)
    (h : ∀ x, x ∈ used ↔ ∃ c ∈ cls, x ∈ c) (x : String) :
    x ∈ (build_clusters_aux simm kws threshold n is cls used).2 ↔
      ∃ c ∈ (build_clusters_aux simm kws threshold n is cls used).1, x ∈ c := by
  induction is generalizing cls used with
  | nil => exact h x
  | cons i is ih =>
      simp only [build_clusters_aux]
      split_ifs with hmem
      · exact ih cls used h
      · refine ih _ _ (fun y => ?_)
        rw [cluster_step_mem_rel, h y]
        constructor
        · rintro (⟨c, hc, hy⟩ | hy)
          · exact ⟨c, List.mem_append_left _ hc, hy⟩
          · exact ⟨_, List.mem_append_right _ (List.mem_singleton_self _), hy⟩
        · rintro ⟨c, hc, hy⟩
          rcases List.mem_append.mp hc with hc | hc
          · exact Or.inl ⟨c, hc, hy⟩
          · rw [List.mem_singleton] at hc
            subst hc
            exact Or.inr hy

theorem aux_used_mono (simm : Nat → Nat → ℚ) (kws : List String) (threshold : ℚ)
    (n : Nat) (is : List Nat) (cls : List (List String)) (used : List String)
    (x : String) (hx : x ∈ used) :
    x ∈ (build_clusters_aux simm kws threshold n is cls used).2 := by
  induction is generalizing cls used with
  | nil => exact hx
  | cons i is ih =>
      simp only [build_clusters_aux]
      split_ifs with hmem
      · exact ih cls used hx
      · exact ih _ _ (cluster_step_used_mono simm kws threshold n i used x hx)

theorem aux_covers (simm : Nat → Nat → ℚ) (kws : List String) (threshold : ℚ)
    (n : Nat) (is : List Nat) (cls : List (List String)) (used : List String) :
    ∀ i ∈ is, kws.getD i emptyStr ∈
      (build_clusters_aux simm kws threshold n is cls used).2 := by
  induction is generalizing cls used with
  | nil => intro i hi; simp at hi
  | cons i is ih =>
      intro i' hi'
      simp only [build_clusters_aux]
      split_ifs with hmem
      · rcases List.mem_cons.mp hi' with rfl | hi'
        · exact aux_used_mono simm kws threshold n is cls used _ hmem
        · exact ih cls used i' hi'
      · rcases List.mem_cons.mp hi' with rfl | hi'
        · refine aux_used_mono simm kws threshold n is _ _ _ ?_
          exact (cluster_step_mem_rel simm kws threshold n i' used _).mpr
            (Or.inr (cluster_step_seed_mem simm kws threshold n i' used))
        · exact ih _ _ i' hi'

theorem aux_heads (simm : Nat → Nat → ℚ) (kws : List String) (threshold : ℚ)
    (n : Nat) (is : List Nat) (cls : List (List String)) (used : List String) :
    ∃ new, (build_clusters_aux simm kws threshold n is cls used).1 = cls ++ new ∧
      List.Sublist (new.map (fun c => c.headD emptyStr))
        (is.map (fun i => kws.getD i emptyStr)) := by
  induction is generalizing cls used with
  | nil => exact ⟨[], by simp [build_clusters_aux], by simp⟩
  | cons i is ih =>
      simp only [build_clusters_aux]
      split_ifs with hmem
      · obtain ⟨new, h1, h2⟩ := ih cls used
        exact ⟨new, h1, h2.cons _⟩
      · obtain ⟨new, h1, h2⟩ :=
          ih (cls ++ [(cluster_step simm kws threshold n i used).1])
            (cluster_step simm kws threshold n i used).2
        refine ⟨(cluster_step simm kws threshold n i used).1 :: new, ?_, ?_⟩
        · rw [h1]
          simp
        · rw [List.map_cons, List.map_cons]
          have hhd : (cluster_step simm kws threshold n i used).1.headD emptyStr =
              kws.getD i emptyStr := by
            have := (cluster_step_head simm kws threshold n i used).1
            rw [List.headD_eq_head?, this]
            rfl
          rw [hhd]
          exact h2.cons₂ _

theorem aux_ne_nil (simm : Nat → Nat → ℚ) (kws : List String) (threshold : ℚ)
    (n : Nat) (is : List Nat) (cls : List (List String)) (used : List String)
    (h : ∀ c ∈ cls, c ≠ []) :
    ∀ c ∈ (build_clusters_aux simm kws threshold n is cls used).1, c ≠ [] := by
  induction is generalizing cls used with
  | nil => exact h
  | cons i is ih =>
      simp only [build_clusters_aux]
      split_ifs with hmem
      · exact ih cls used h
      · refine ih _ _ (fun c hc => ?_)
        rcases List.mem_append.mp hc with hc | hc
        · exact h c hc
        · rw [List.mem_singleton] at hc
          subst hc
          exact (cluster_step_head simm kws threshold n i used).2

theorem range_map_getD (l : List String) :
    (List.range l.length).map (fun i => l.getD i emptyStr) = l := by
  induction l with
  | nil => rfl
  | cons a l ih =>
      rw [List.length_cons, List.range_succ_eq_map, List.map_cons, List.map_map]
      rw [List.cons.injEq]
      exact ⟨rfl, ih⟩

theorem build_clusters_covers (simm : Nat → Nat → ℚ) (kws : List String)
    (threshold : ℚ) (x : String) (hx : x ∈ kws) :
    ∃ c ∈ build_clusters simm kws threshold, x ∈ c := by
  obtain ⟨i, hi, hgx⟩ := List.mem_iff_getElem.mp hx
  have hget : kws.getD i emptyStr = x := by
    rw [List.getD_eq_getElem _ _ hi]
    exact hgx
  have hcov := aux_covers simm kws threshold kws.length
    (List.range kws.length) [] [] i (List.mem_range.mpr hi)
  rw [hget] at hcov
  have hinv := aux_inv simm kws threshold kws.length
    (List.range kws.length) [] [] (fun y => by simp) x
  exact hinv.mp hcov

theorem build_clusters_heads (simm : Nat → Nat → ℚ) (kws : List String)
    (threshold : ℚ) :
    List.Sublist ((build_clusters simm kws threshold).map
      (fun c => c.headD emptyStr)) kws := by
  obtain ⟨new, h1, h2⟩ := aux_heads simm kws threshold kws.length
    (List.range kws.length) [] []
  unfold build_clusters
  rw [h1, List.nil_append]
  rw [range_map_getD] at h2
  exact h2

theorem build_clusters_ne_nil (simm : Nat → Nat → ℚ) (kws : List String)
    (threshold : ℚ) : ∀ c ∈ build_clusters simm kws threshold, c ≠ [] :=
  aux_ne_nil simm kws threshold kws.length (List.range kws.length) [] []
    (fun c hc => absurd hc (List.not_mem_nil c))

/-! ### Concrete instances used by witnesses and counterexamples -/

/-- A deterministic stand-in for the embedding service. -/
def testProvider : String → Emb := fun s =>
  if s = "a" then [0] else if s = "b" then [1] else [2]

/-- A similarity making the embeddings of \"a\"/\"b\" and \"b\"/\"c\" similar
(score 1) but not \"a\"/\"c\" (score 0); defined by case analysis so that it
evaluates by kernel reduction. -/
def testSim : Emb → Emb → ℚ := fun x y =>
  if (x = [0] ∧ y = [1]) ∨ (x = [1] ∧ y = [0]) ∨
      (x = [1] ∧ y = [2]) ∨ (x = [2] ∧ y = [1]) then 1 else 0

/-- The everywhere-zero similarity. -/
def zeroSim : Emb → Emb → ℚ := fun _ _ => 0

/-- An annotator producing an empty document analysis. -/
def emptyDocFn : String → Doc := fun _ => ⟨[], [], []⟩

/-- A TF-IDF routine that always fails. -/
def noTfidf : String → Option (List String) := fun _ => none

/-! ### The claims -/

/-- C6: `align_keywords` applied to the empty list returns the empty list
and leaves the state untouched, for every provider, similarity function
and state: it neither invokes the embedding provider nor reads or writes
either cache. -/
theorem claim6_empty_input (provider : String → Emb) (sim : Emb → Emb → ℚ)
    (st : KWState) (threshold : ℚ) :
    align_keywords provider sim st [] threshold = ([], st) :=
  align_keywords_empty provider sim st threshold

/-- Modelled from the spec: a character that is a "letter (including
accented Latin letters)" — an ASCII letter, or a Latin-1 letter from the
block C0–FF, which contains every accented Latin-1 letter but not the
multiplication sign × (D7) nor the division sign ÷ (F7). -/
def specLetter (c : Char) : Bool :=
  let n := c.toNat
  (0x61 ≤ n && n ≤ 0x7A) || (0x41 ≤ n && n ≤ 0x5A) ||
  (0xC0 ≤ n && n ≤ 0xFF && !(n == 0xD7) && !(n == 0xF7))

/-- Modelled from the spec: "strings longer than 2 characters composed
solely of letters (including accented Latin letters), whitespace, and
hyphens". -/
def specFilterOk (k : String) : Bool :=
  decide (k.length > 2) &&
    k.data.all (fun c => specLetter c || pySpace c || c == '-')

/-- C3 counterexample: the candidate `"a×b"` (three characters, containing
the multiplication sign ×, which is neither a letter nor whitespace nor a
hyphen) is retained by the filter and returned by the candidate
generator. -/
theorem claim3_counterexample :
    generate_candidates ⟨["a×b"], [], []⟩ none = ["a×b"] ∧
      specFilterOk "a×b" = false := by
  constructor
  · rfl
  · decide

/-- C3 (amended): every candidate retained by the generator is longer than
2 characters and consists solely of characters of the regex class — the
letters a–z and A–Z, the Latin-1 block À–ÿ (which besides accented
letters contains the symbols × and ÷), whitespace, and hyphens; in
particular no retained candidate contains an ASCII digit. -/
theorem claim3_filter (doc : Doc) (tf : Option (List String)) (k : String)
    (h : k ∈ generate_candidates doc tf) :
    k.length > 2 ∧ (∀ c ∈ k.data, filterChar c = true) ∧
      ∀ c ∈ k.data, ¬ (0x30 ≤ c.toNat ∧ c.toNat ≤ 0x39) := by
  have hp := mem_generate_candidates h
  unfold passes_filter at hp
  rw [Bool.and_eq_true, decide_eq_true_eq] at hp
  obtain ⟨h1, h2⟩ := hp
  rw [List.all_eq_true] at h2
  exact ⟨h1, h2, fun c hc => filterChar_not_digit (h2 c hc)⟩

theorem claim3_witness :
    "abc".length > 2 ∧ (∀ c ∈ "abc".data, filterChar c = true) ∧
      ∀ c ∈ "abc".data, ¬ (0x30 ≤ c.toNat ∧ c.toNat ≤ 0x39) :=
  claim3_filter ⟨["abc"], [], []⟩ none "abc" (by decide)

/-- C7: a failure of the TF-IDF step (modelled as `none`) is exactly
equivalent to that step contributing zero candidates (`some []`): both the
candidate set and the entire result of `extract_keywords` coincide, so the
failure is never propagated and the other three methods' candidates are
unaffected. -/
theorem claim7_tfidf_swallowed (provider : String → Emb) (sim : Emb → Emb → ℚ)
    (annotate : String → Doc) (tf1 tf2 : String → Option (List String))
    (st : KWState) (text : String) (n : Nat)
    (h1 : tf1 text = none) (h2 : tf2 text = some []) :
    generate_candidates (annotate text) (tf1 text) =
        generate_candidates (annotate text) (tf2 text) ∧
      extract_keywords provider sim annotate tf1 st text n =
        extract_keywords provider sim annotate tf2 st text n := by
  constructor
  · rw [h1, h2]
    exact rfl
  · simp only [extract_keywords]
    rw [h1, h2]
    exact rfl

theorem claim7_witness :
    generate_candidates (emptyDocFn "t") (noTfidf "t") =
        generate_candidates (emptyDocFn "t") ((fun _ => some []) "t") ∧
      extract_keywords testProvider zeroSim emptyDocFn noTfidf coldState "t" 3 =
        extract_keywords testProvider zeroSim emptyDocFn
          (fun _ => some []) coldState "t" 3 :=
  claim7_tfidf_swallowed testProvider zeroSim emptyDocFn noTfidf
    (fun _ => some []) coldState "t" 3 rfl rfl

/-- C8: when no candidate from any of the four methods survives the
filter, `extract_keywords` returns the empty list — a valid result, not
an error. -/
theorem claim8_no_candidates (provider : String → Emb) (sim : Emb → Emb → ℚ)
    (annotate : String → Doc) (tfidf_top : String → Option (List String))
    (st : KWState) (text : String) (n : Nat)
    (h : generate_candidates (annotate text) (tfidf_top text) = []) :
    (extract_keywords provider sim annotate tfidf_top st text n).1 = [] := by
  rw [extract_keywords_eq]
  simp [h]

theorem claim8_witness :
    (extract_keywords testProvider zeroSim emptyDocFn noTfidf
      coldState "t" 3).1 = [] :=
  claim8_no_candidates testProvider zeroSim emptyDocFn noTfidf
    coldState "t" 3 rfl

/-- C4: for every non-empty candidate set, `extract_keywords` returns at
most `num_keywords` items, each drawn from the candidate set, ordered by
non-increasing similarity score against the document embedding. -/
theorem claim4_extract_sorted (provider : String → Emb) (sim : Emb → Emb → ℚ)
    (annotate : String → Doc) (tfidf_top : String → Option (List String))
    (st : KWState) (text : String) (n : Nat)
    (_hne : generate_candidates (annotate text) (tfidf_top text) ≠ []) :
    (extract_keywords provider sim annotate tfidf_top st text n).1.length ≤ n ∧
    (∀ k ∈ (extract_keywords provider sim annotate tfidf_top st text n).1,
      k ∈ generate_candidates (annotate text) (tfidf_top text)) ∧
    List.Sorted (fun a b : ℚ => b ≤ a)
      ((extract_keywords provider sim annotate tfidf_top st text n).1.map
        (scoreOf provider sim st text)) := by
  rw [extract_keywords_eq]
  simp only []
  refine ⟨?_, ?_, ?_⟩
  · rw [List.length_map, List.length_take]
    exact min_le_left n _
  · intro k hk
    rcases List.mem_map.mp hk with ⟨q, hq, rfl⟩
    have hq2 := List.mem_mergeSort.mp (List.mem_of_mem_take hq)
    rcases List.mem_map.mp hq2 with ⟨k2, hk2, rfl⟩
    exact hk2
  · have htrans : ∀ a b c : String × ℚ,
        (fun a b : String × ℚ => decide (b.2 ≤ a.2)) a b = true →
        (fun a b : String × ℚ => decide (b.2 ≤ a.2)) b c = true →
        (fun a b : String × ℚ => decide (b.2 ≤ a.2)) a c = true := by
      intro a b c h1 h2
      rw [decide_eq_true_eq] at h1 h2
      rw [decide_eq_true_eq]
      exact le_trans h2 h1
    have htotal : ∀ a b : String × ℚ,
        ((fun a b : String × ℚ => decide (b.2 ≤ a.2)) a b ||
          (fun a b : String × ℚ => decide (b.2 ≤ a.2)) b a) = true := by
      intro a b
      rcases le_total a.2 b.2 with h | h <;> simp [h]
    have hsorted := List.sorted_mergeSort htrans htotal
      ((generate_candidates (annotate text) (tfidf_top text)).map
        (fun k => (k, scoreOf provider sim st text k)))
    have htake := hsorted.sublist (List.take_sublist n _)
    have hmemval : ∀ q : String × ℚ,
        q ∈ (((generate_candidates (annotate text) (tfidf_top text)).map
          (fun k => (k, scoreOf provider sim st text k))).mergeSort
            (fun a b => decide (b.2 ≤ a.2))).take n →
        q.2 = scoreOf provider sim st text q.1 := by
      intro q hq
      have hq2 := List.mem_mergeSort.mp (List.mem_of_mem_take hq)
      rcases List.mem_map.mp hq2 with ⟨k2, hk2, rfl⟩
      rfl
    unfold List.Sorted
    rw [List.map_map, List.pairwise_map]
    refine htake.imp_of_mem (fun ha hb hr => ?_)
    rw [decide_eq_true_eq] at hr
    rw [Function.comp_apply, Function.comp_apply, ← hmemval _ ha, ← hmemval _ hb]
    exact hr

theorem claim4_witness :
    (extract_keywords testProvider zeroSim
        (fun _ => ⟨["abc", "abcd"], [], []⟩) noTfidf coldState "t" 1).1.length ≤ 1 ∧
    (∀ k ∈ (extract_keywords testProvider zeroSim
        (fun _ => ⟨["abc", "abcd"], [], []⟩) noTfidf coldState "t" 1).1,
      k ∈ generate_candidates ((fun _ => ⟨["abc", "abcd"], [], []⟩) "t")
        (noTfidf "t")) ∧
    List.Sorted (fun a b : ℚ => b ≤ a)
      ((extract_keywords testProvider zeroSim
        (fun _ => ⟨["abc", "abcd"], [], []⟩) noTfidf coldState "t" 1).1.map
          (scoreOf testProvider zeroSim coldState "t")) :=
  claim4_extract_sorted testProvider zeroSim
    (fun _ => ⟨["abc", "abcd"], [], []⟩) noTfidf coldState "t" 1 (by decide)

/-- C10: `extract_keywords` never modifies the keyword alignment cache,
and no operation — `get_embedding`, `extract_keywords` or
`align_keywords` — ever overwrites an existing embedding-cache entry:
an entry, once present, survives every operation with its value intact. -/
theorem claim10_frame (provider : String → Emb) (sim : Emb → Emb → ℚ)
    (annotate : String → Doc) (tfidf_top : String → Option (List String))
    (st : KWState) (text t : String) (n : Nat) (kws : List String)
    (threshold : ℚ) (k : String) (v : Emb)
    (h : dlookup st.embedding_cache k = some v) :
    (extract_keywords provider sim annotate tfidf_top st text n).2.keyword_alignment_cache =
        st.keyword_alignment_cache ∧
    dlookup (get_embedding provider st t).2.embedding_cache k = some v ∧
    dlookup (extract_keywords provider sim annotate tfidf_top st text n).2.embedding_cache k =
        some v ∧
    dlookup (align_keywords provider sim st kws threshold).2.embedding_cache k = some v := by
  refine ⟨?_, ?_, ?_, ?_⟩
  · rw [extract_keywords_eq]
    simp only []
    rw [get_embedding_align, embed_all_align]
  · exact get_embedding_preserves provider st t k v h
  · rw [extract_keywords_eq]
    simp only []
    exact get_embedding_preserves provider _ text k v
      (embed_all_preserves provider _ [] st k v h)
  · by_cases h1 : kws = []
    · subst h1
      rw [align_keywords_empty]
      exact h
    · by_cases h2 : kws.all
        (fun k => (dlookup st.keyword_alignment_cache k).isSome) = true
      · rw [align_keywords_fast provider sim st kws threshold h1 h2]
        exact h
      · rw [align_keywords_slow provider sim st kws threshold h1 h2]
        exact embed_all_preserves provider kws [] st k v h

theorem claim10_witness :
    (extract_keywords testProvider zeroSim emptyDocFn noTfidf
        ⟨[("k", [5])], [("q", "r")]⟩ "t" 3).2.keyword_alignment_cache =
      (⟨[("k", [5])], [("q", "r")]⟩ : KWState).keyword_alignment_cache ∧
    dlookup (get_embedding testProvider ⟨[("k", [5])], [("q", "r")]⟩
        "u").2.embedding_cache "k" = some [5] ∧
    dlookup (extract_keywords testProvider zeroSim emptyDocFn noTfidf
        ⟨[("k", [5])], [("q", "r")]⟩ "t" 3).2.embedding_cache "k" = some [5] ∧
    dlookup (align_keywords testProvider zeroSim ⟨[("k", [5])], [("q", "r")]⟩
        ["a"] 1).2.embedding_cache "k" = some [5] :=
  claim10_frame testProvider zeroSim emptyDocFn noTfidf
    ⟨[("k", [5])], [("q", "r")]⟩ "t" "u" 3 ["a"] 1 "k" [5] (by decide)

/-- C1 counterexample: on a cold cache, with the duplicated input
`["a","a"]`, the first call returns one representative (`["a"]`) while the
second call takes the cache fast path and returns one entry per input
keyword (`["a","a"]`): the outputs differ. (The result does not depend on
the similarity values: the single cluster is a set, so the duplicate
collapses.) -/
theorem claim1_counterexample :
    (align_keywords testProvider zeroSim coldState ["a","a"] 1).1 = ["a"] ∧
    (align_keywords testProvider zeroSim
        (align_keywords testProvider zeroSim coldState ["a","a"] 1).2
        ["a","a"] 1).1 = ["a","a"] := by
  decide

/-- C1 (amended): on a cold cache with non-empty input, the first call
populates the alignment cache for every input keyword; the second
identical call therefore takes the cache fast path: it returns the cached
representative of each input keyword in input order and leaves the state
unchanged. The two outputs thus agree only when one representative per
input keyword equals one representative per cluster; in general (duplicate
inputs, multi-member clusters) they differ in length. -/
theorem claim1_fast_path_after_cold_call (provider : String → Emb)
    (sim : Emb → Emb → ℚ) (kws : List String) (threshold : ℚ) (hne : kws ≠ []) :
    (∀ k ∈ kws,
      (dlookup (align_keywords provider sim coldState
        kws threshold).2.keyword_alignment_cache k).isSome = true) ∧
    (align_keywords provider sim
        (align_keywords provider sim coldState kws threshold).2 kws threshold).1 =
      kws.map (fun k =>
        (dlookup (align_keywords provider sim coldState
          kws threshold).2.keyword_alignment_cache k).getD emptyStr) ∧
    (align_keywords provider sim
        (align_keywords provider sim coldState kws threshold).2 kws threshold).2 =
      (align_keywords provider sim coldState kws threshold).2 := by
  have hnotall : ¬ kws.all
      (fun k => (dlookup coldState.keyword_alignment_cache k).isSome) = true := by
    match kws, hne with
    | k :: kws, _ =>
        intro hall
        rw [List.all_eq_true] at hall
        have := hall k (List.mem_cons_self _ _)
        simp [coldState, dlookup_nil] at this
  have hslow := align_keywords_slow provider sim coldState kws threshold hne hnotall
  have hcached : ∀ k ∈ kws,
      (dlookup (align_keywords provider sim coldState
        kws threshold).2.keyword_alignment_cache k).isSome = true := by
    intro k hk
    rw [hslow]
    simp only []
    rw [alignWrites_lookup]
    have hsome : (lastContaining
        (callClusters provider sim coldState kws threshold) k).isSome = true := by
      rw [lastContaining_isSome]
      exact build_clusters_covers
        (simEntry sim (embed_all provider kws [] coldState).1 kws) kws threshold k hk
    cases hlc : lastContaining (callClusters provider sim coldState kws threshold) k with
    | some c' => simp
    | none =>
        rw [hlc] at hsome
        simp at hsome
  have hall2 : kws.all (fun k =>
      (dlookup (align_keywords provider sim coldState
        kws threshold).2.keyword_alignment_cache k).isSome) = true := by
    rw [List.all_eq_true]
    exact hcached
  have hfast := align_keywords_fast provider sim
    (align_keywords provider sim coldState kws threshold).2 kws threshold hne hall2
  exact ⟨hcached, by rw [hfast], by rw [hfast]⟩

theorem claim1_witness :
    (∀ k ∈ (["a","b"] : List String),
      (dlookup (align_keywords testProvider zeroSim coldState
        ["a","b"] 1).2.keyword_alignment_cache k).isSome = true) ∧
    (align_keywords testProvider zeroSim
        (align_keywords testProvider zeroSim coldState ["a","b"] 1).2
        ["a","b"] 1).1 =
      (["a","b"] : List String).map (fun k =>
        (dlookup (align_keywords testProvider zeroSim coldState
          ["a","b"] 1).2.keyword_alignment_cache k).getD emptyStr) ∧
    (align_keywords testProvider zeroSim
        (align_keywords testProvider zeroSim coldState ["a","b"] 1).2
        ["a","b"] 1).2 =
      (align_keywords testProvider zeroSim coldState ["a","b"] 1).2 :=
  claim1_fast_path_after_cold_call testProvider zeroSim ["a","b"] 1 (by decide)

/-- C2 counterexample: with the alignment cache pre-populated with
`"a" ↦ "x"`, the call `align_keywords ["a","a"]` takes the fast path and
returns `["x","x"]` — two entries, one per input keyword — although the
clustering of this input forms a single cluster (and the fast path forms
none at all): the result length is not the number of clusters. -/
theorem claim2_counterexample :
    (align_keywords testProvider zeroSim (⟨[], [("a","x")]⟩ : KWState)
        ["a","a"] 1).1 = ["x","x"] ∧
    callClusters testProvider zeroSim (⟨[], [("a","x")]⟩ : KWState)
        ["a","a"] 1 = [["a"]] := by
  decide

/-- C2 (amended): on the slow path (non-empty input with at least one
keyword missing from the alignment cache), `align_keywords` returns
exactly the representative of each cluster, one per cluster in
cluster-creation order — the result length is the number of clusters, and
the cluster seeds appear in input order (a sublist of the input, each seed
being the first unclustered keyword that starts its cluster). On the cache
fast path the result is instead one cached representative per input
keyword. -/
theorem claim2_one_rep_per_cluster (provider : String → Emb)
    (sim : Emb → Emb → ℚ) (st : KWState) (kws : List String) (threshold : ℚ)
    (h1 : kws ≠ [])
    (h2 : ¬ kws.all (fun k => (dlookup st.keyword_alignment_cache k).isSome) = true) :
    (align_keywords provider sim st kws threshold).1 =
      (callClusters provider sim st kws threshold).map (representative kws) ∧
    (align_keywords provider sim st kws threshold).1.length =
      (callClusters provider sim st kws threshold).length ∧
    List.Sublist ((callClusters provider sim st kws threshold).map
      (fun c => c.headD emptyStr)) kws := by
  have hs := align_keywords_slow provider sim st kws threshold h1 h2
  refine ⟨by rw [hs], ?_, ?_⟩
  · rw [hs]
    simp only []
    rw [List.length_map]
  · exact build_clusters_heads _ _ _

theorem claim2_witness :
    (align_keywords testProvider testSim coldState ["a","b","c"] 1).1 =
      (callClusters testProvider testSim coldState ["a","b","c"] 1).map
        (representative ["a","b","c"]) ∧
    (align_keywords testProvider testSim coldState ["a","b","c"] 1).1.length =
      (callClusters testProvider testSim coldState ["a","b","c"] 1).length ∧
    List.Sublist ((callClusters testProvider testSim coldState
      ["a","b","c"] 1).map (fun c => c.headD emptyStr)) ["a","b","c"] :=
  claim2_one_rep_per_cluster testProvider testSim coldState ["a","b","c"] 1
    (by decide) (by decide)

/-- C5 counterexample: in the single cold-cache call on `["a","b","c"]`
(similarities: a–b and b–c at the threshold, a–c below), the clustering
forms `[["a","b"], ["c","b"]]`; recording the first cluster writes
`"b" ↦ "a"` into the alignment cache, and recording the second cluster
then mutates that same entry to `"b" ↦ "b"` — within one batch. -/
theorem claim5_counterexample :
    callClusters testProvider testSim coldState ["a","b","c"] 1 =
        [["a","b"], ["c","b"]] ∧
    dlookup (alignWrites ["a","b","c"] [["a","b"]] []) "b" = some "a" ∧
    dlookup (alignWrites ["a","b","c"] [["a","b"], ["c","b"]] []) "b" =
      some "b" := by
  decide

/-- C5 (amended): the alignment cache always maps each key to exactly one
representative (it is a map), but within a single slow-path
`align_keywords` call the entry of a keyword belonging to several
(overlapping) clusters is rewritten as each containing cluster is
recorded: its final value is the representative of the LAST cluster
containing it, and keys contained in no cluster keep their prior value. -/
theorem claim5_last_cluster_wins (provider : String → Emb)
    (sim : Emb → Emb → ℚ) (st : KWState) (kws : List String) (threshold : ℚ)
    (k : String) (h1 : kws ≠ [])
    (h2 : ¬ kws.all (fun k => (dlookup st.keyword_alignment_cache k).isSome) = true) :
    dlookup (align_keywords provider sim st kws
        threshold).2.keyword_alignment_cache k =
      match lastContaining (callClusters provider sim st kws threshold) k with
      | some c => some (representative kws c)
      | none => dlookup st.keyword_alignment_cache k := by
  rw [align_keywords_slow provider sim st kws threshold h1 h2]
  simp only []
  rw [alignWrites_lookup, embed_all_align]

theorem claim5_witness :
    dlookup (align_keywords testProvider testSim coldState ["a","b","c"]
        1).2.keyword_alignment_cache "b" =
      match lastContaining (callClusters testProvider testSim coldState
          ["a","b","c"] 1) "b" with
      | some c => some (representative ["a","b","c"] c)
      | none => dlookup coldState.keyword_alignment_cache "b" :=
  claim5_last_cluster_wins testProvider testSim coldState ["a","b","c"] 1 "b"
    (by decide) (by decide)

/-- C9: a concrete input on which the clusters of one `align_keywords`
call are NOT pairwise disjoint: `"b"` sits in both clusters (its
similarity to the later seed `"c"` reaches the threshold although `"b"`
was already placed in the first cluster), the two clusters have different
representatives, and `"b"`'s final alignment-cache entry is the
representative of the last cluster containing it. -/
theorem claim9_overlap :
    callClusters testProvider testSim coldState ["a","b","c"] 1 =
        [["a","b"], ["c","b"]] ∧
    "b" ∈ (["a","b"] : List String) ∧ "b" ∈ (["c","b"] : List String) ∧
    representative ["a","b","c"] ["a","b"] = "a" ∧
    representative ["a","b","c"] ["c","b"] = "b" ∧
    dlookup (align_keywords testProvider testSim coldState
        ["a","b","c"] 1).2.keyword_alignment_cache "b" = some "b" := by
  decide

end QuestionAir
